import Mathlib

/-!
Shallow embedding of the lightct calibration and reconstruction pipeline
(src/lightct/load_scan.py and src/lightct/tomo_scan.py) together with
theorems settling the specification claims about it.

Conventions of the embedding:
* numpy arrays of pixels are nested lists of rationals; a projection stack
  is stored frame-major (`stack.getD t []` is the frame acquired at time t;
  in the numpy source the stack is an (H, W, N) array with the frame index
  last, so this is a pure re-indexing).
* `np.std` is the square root of the population variance and is only ever
  used in comparisons (`argrelmin`, `np.argmin`); since squaring is strictly
  monotone on nonnegative reals the embedding carries the variance instead
  (`qVar`); the lemma `sqrt_lt_sqrt_iff_qvar` below records the
  justification.
* Python mutation of `self` is modelled by returning the post-call object
  state, paired with the raised exception (if any), so that the state
  changes performed before a failing `assert` are visible.
* genuinely transcendental code (the `-np.log` conversion and the
  `cos`/`sin` rotation mapping of the visual-hull reconstructor) is
  embedded over `ℝ`.
-/

/-- A 2D image: list of pixel rows. -/
abbrev Mat := List (List ℚ)

/-- A projection stack, frame-major. -/
abbrev Stack := List Mat

/-- Arithmetic mean of a list of rationals (np.mean); `0` on the empty list
(numpy would return NaN there, a case the source never exercises). -/
def qMean (xs : List ℚ) : ℚ := xs.sum / xs.length

/-- Population variance, the square of np.std.  The source compares standard
deviations only, and squaring is strictly monotone on nonnegative reals, so
all comparison results are unchanged. -/
def qVar (xs : List ℚ) : ℚ := qMean (xs.map fun x => (x - qMean xs) ^ 2)

/-- Pointwise row addition (used for numpy elementwise sums). -/
def addRow (a b : List ℚ) : List ℚ := List.zipWith (· + ·) a b

/-- Pointwise matrix addition. -/
def matAdd (a b : Mat) : Mat := List.zipWith addRow a b

/-- Pointwise matrix subtraction. -/
def matSub (a b : Mat) : Mat :=
  List.zipWith (fun r s => List.zipWith (· - ·) r s) a b

/-- All pixels of a matrix as a flat list. -/
def matFlat (a : Mat) : List ℚ := a.flatten

/-- np.fliplr: reverse every row. -/
def fliplr (a : Mat) : Mat := a.map List.reverse

/-- Resolve one end of a Python slice `l[a:b]` against a list of length n:
`none` means the bound is absent, negative values count from the end, and
everything is clamped into `[0, n]`. -/
def pyIdx (n : ℕ) (dflt : ℕ) : Option ℤ → ℕ
  | none => dflt
  | some v => if v < 0 then ((n : ℤ) + v).toNat else min v.toNat n

/-- Python slice `l[a:b]` (step 1). -/
def pySlice (a b : Option ℤ) (l : List α) : List α :=
  (l.take (pyIdx l.length l.length b)).drop (pyIdx l.length 0 a)

/-- np.linspace(a, b, n): n evenly spaced samples with both endpoints
included (`[a]` for n = 1, `[]` for n = 0). -/
def linspace (a b : ℚ) (n : ℕ) : List ℚ :=
  (List.range n).map fun (i : ℕ) => if n ≤ 1 then a else a + (b - a) * (i : ℚ) / ((n : ℚ) - 1)

/-- np.linspace(a, b, n, dtype=int): linspace followed by conversion to int
(truncation toward zero; on the nonnegative values used by the source this
is the floor).  The embedding is exact rational arithmetic; every property
proved about it (endpoints, weak monotonicity, length) is insensitive to
float roundoff. -/
def linspaceInt (a b : ℚ) (n : ℕ) : List ℚ :=
  (linspace a b n).map fun x => ((⌊x⌋ : ℤ) : ℚ)

/-- The Python exceptions the embedded operations can raise, plus the two
error names the specification document introduces for its design taxonomy
(`calibrationError`, `invalidRangeError`); the code itself never constructs
the latter two, which is what several claims are about. -/
inductive PyErr
  | assertionError
  | indexError
  | valueError
  | calibrationError
  | invalidRangeError
deriving DecidableEq

/-- The mutable object state shared by LoadProjections / TomoScan: the
fields assigned in `__init__` and mutated by the calibration methods.
`num_images` and `angles` start out as None. -/
structure CtState where
  p0 : ℕ
  cor_offset : ℤ
  num_images : Option ℕ
  angles : Option (List ℚ)
  crop : Option ℤ × Option ℤ × Option ℤ × Option ℤ
  im_stack : Stack
deriving DecidableEq

/-- LoadProjections.set_angles (load_scan.py lines 63-79).  Note the order
of the source statements: `self.p0 = p0` precedes the range assert, so p0
is updated even on the failing path; the failing path raises
AssertionError. -/
def set_angles (s : CtState) (num_images : ℕ) (ang_range : ℚ) (p0 : ℕ) :
    CtState × Option PyErr :=
  let s1 := { s with p0 := p0 }
  if ang_range = 180 ∨ ang_range = 360 then
    ({ s1 with angles := some (linspace 0 ang_range num_images),
               num_images := some num_images }, none)
  else (s1, some .assertionError)

/-- Variance over all pixels of the difference of two frames
(`(data - ref).std()` squared). -/
def frameVarDiff (f ref : Mat) : ℚ := qVar (matFlat (matSub f ref))

/-- The difference curve of auto_set_angles (load_scan.py lines 96-105):
entry m is the pixelwise deviation of frame p0+m from the reference frame
p0 (as a variance, see `qVar`).  Entry 0 is always 0. -/
def diffCurve (stack : Stack) (p0 : ℕ) : List ℚ :=
  (stack.drop p0).map fun f => frameVarDiff f (stack.getD p0 [])

/-- One test of scipy.signal.argrelmin (comparator np.less, default mode
'clip'): index i is a relative minimum iff it is strictly below the values
at distances 1..order on both sides, with out-of-range indices clipped to
the ends of the curve. -/
def relMinAt (d : List ℚ) (order i : ℕ) : Bool :=
  (List.range order).all fun o =>
    decide (d.getD i 0 < d.getD (min (i + (o + 1)) (d.length - 1)) 0) &&
    decide (d.getD i 0 < d.getD (i - (o + 1)) 0)

/-- scipy.signal.argrelmin: the ordered list of relative-minimum indices. -/
def argrelmin (d : List ℚ) (order : ℕ) : List ℕ :=
  (List.range d.length).filter (relMinAt d order)

/-- LoadProjections.auto_set_angles (load_scan.py lines 81-109).  scipy
raises ValueError when the window `order = est_nproj // 2` is < 1; when the
curve has no qualifying relative minimum, `minimas[0][0]` indexes an empty
array and raises IndexError.  On success the method stores
`num_images = first minimum + 1` and integer-valued angles 0..360.
(tomo_scan.py lines 80-105 differs only in a (3,3) local-mean downscale of
the frames before the difference computation.) -/
def auto_set_angles (s : CtState) (est_nproj p0 : ℕ) : CtState × Option PyErr :=
  let s1 := { s with p0 := p0 }
  let order := est_nproj / 2
  if order < 1 then (s1, some .valueError)
  else
    match argrelmin (diffCurve s1.im_stack p0) order with
    | [] => (s1, some .indexError)
    | m :: _ =>
        ({ s1 with num_images := some (m + 1),
                   angles := some (linspaceInt 0 360 (m + 1)) }, none)

/-- TomoScan.manual_set_angles with interact=False (tomo_scan.py lines
191-253): sets p0, asserts the range (AssertionError on failure, after p0
was already updated), then stores the angles (num_images is NOT stored) and
truncates im_stack to its first num_images frames.  The interactive branch
is an external-UI collaborator and is not embedded. -/
def manual_set_angles (s : CtState) (p0 num_images : ℕ) (ang_range : ℚ) :
    CtState × Option PyErr :=
  let s1 := { s with p0 := p0 }
  if ang_range = 180 ∨ ang_range = 360 then
    ({ s1 with angles := some (linspace 0 ang_range num_images),
               im_stack := s1.im_stack.take num_images }, none)
  else (s1, some .assertionError)

/-- LoadProjections.set_centre (load_scan.py lines 128-134). -/
def set_centre (s : CtState) (cor : ℤ) : CtState := { s with cor_offset := cor }

/-- The tuple entries built by set_crop: None when the argument is 0. -/
def pyOptNonzero (i : ℤ) : Option ℤ := if i = 0 then none else some i

/-- LoadProjections.set_crop (load_scan.py lines 193-204): stores the
four-sided crop specification (left, right, top, bottom); plotting is
external. -/
def set_crop (s : CtState) (width top bottom : ℤ) : CtState :=
  { s with crop := (pyOptNonzero width, pyOptNonzero (-width),
                    pyOptNonzero top, pyOptNonzero (-bottom)) }

/-- One output row of skimage downscale_local_mean along the second axis:
blocks of d entries are averaged, the trailing partial block being
zero-padded (sum of the available entries divided by d). -/
def blockMeanRow (d : ℕ) (r : List ℚ) : List ℚ :=
  (List.range ((r.length + d - 1) / d)).map fun b =>
    ((r.drop (b * d)).take d).sum / d

/-- skimage downscale_local_mean along the first (row-block) axis, same
zero-padding convention. -/
def blockMeanCol (d : ℕ) (a : Mat) : Mat :=
  (List.range ((a.length + d - 1) / d)).map fun b =>
    match (a.drop (b * d)).take d with
    | [] => []
    | r :: rs => (rs.foldl addRow r).map (· / d)

/-- skimage downscale_local_mean with a 2D block (dh, dw). -/
def downscale2 (dh dw : ℕ) (a : Mat) : Mat :=
  (blockMeanCol dh a).map (blockMeanRow dw)

/-- The candidate-offset window `range(-half, half)` of auto_centre. -/
def winRangeList (half : ℕ) : List ℤ :=
  (List.range (2 * half)).map fun (k : ℕ) => (k : ℤ) - half

/-- Alignment residual at shift i of auto_centre: variance of the
difference between the flipped 180-degree frame cropped to columns
`[half+i : -half+i]` and the (fixed) cropped reference
(`(cropped - ref).std()` squared). -/
def centreVarAt (ref flipped : Mat) (half : ℕ) (i : ℤ) : ℚ :=
  frameVarDiff (flipped.map (pySlice (some (half + i)) (some (i - half)))) ref

/-- Index of the first occurrence of the minimum of a list (np.argmin);
0 on the empty list. -/
def isMinAt (l : List ℚ) (i : ℕ) : Bool :=
  (List.range l.length).all fun j => decide (l.getD i 0 ≤ l.getD j 0)

/-- np.argmin over a list of rationals. -/
def argminIdx (l : List ℚ) : ℕ :=
  ((List.range l.length).filter (isMinAt l)).headD 0

/-- The reference frame of LoadProjections.auto_centre (load_scan.py lines
147-148): frame p0 cropped to the central window, then block-mean
downsampled by (downsample_y, 1). -/
def loadCentreRef (s : CtState) (window downsample_y : ℕ) : Mat :=
  downscale2 downsample_y 1
    ((s.im_stack.getD s.p0 []).map
      (pySlice (some ((window / 2 : ℕ) : ℤ)) (some (-((window / 2 : ℕ) : ℤ)))))

/-- The flipped opposite frame of LoadProjections.auto_centre (lines
149-151): the frame at index num_images // 2 + p0, downsampled by
(downsample_y, 1), then flipped left-right. -/
def loadCentreFlipped (s : CtState) (downsample_y : ℕ) : Mat :=
  fliplr (downscale2 downsample_y 1
    (s.im_stack.getD (s.num_images.getD 0 / 2 + s.p0) []))

/-- The residual curve of LoadProjections.auto_centre (lines 153-160).
The loop runs over the REVERSED window (`win_range[::-1]`, source comment:
working on flipped data). -/
def load_auto_centre_diffs (s : CtState) (window downsample_y : ℕ) : List ℚ :=
  ((winRangeList (window / 2)).reverse).map fun i =>
    centreVarAt (loadCentreRef s window downsample_y)
      (loadCentreFlipped s downsample_y) (window / 2) i

/-- The centre offset LoadProjections.auto_centre stores (lines 162-163):
np.argmin over the residual curve computed in reversed window order, but
looked up in the UNREVERSED window. -/
def load_auto_centre_offset (s : CtState) (window downsample_y : ℕ) : ℤ :=
  (winRangeList (window / 2)).getD
    (argminIdx (load_auto_centre_diffs s window downsample_y)) 0

/-- State effect of LoadProjections.auto_centre. -/
def load_auto_centre (s : CtState) (window downsample_y : ℕ) : CtState :=
  { s with cor_offset := load_auto_centre_offset s window downsample_y }

/-- The reference frame of TomoScan.auto_centre (tomo_scan.py line 132):
frame p0 cropped to the central window (no downsampling in this version). -/
def tomoCentreRef (s : CtState) (window : ℕ) : Mat :=
  (s.im_stack.getD s.p0 []).map
    (pySlice (some ((window / 2 : ℕ) : ℤ)) (some (-((window / 2 : ℕ) : ℤ))))

/-- The flipped opposite frame of TomoScan.auto_centre (lines 133-134). -/
def tomoCentreFlipped (s : CtState) : Mat :=
  fliplr (s.im_stack.getD (s.num_images.getD 0 / 2 + s.p0) [])

/-- The residual curve of TomoScan.auto_centre (lines 136-142): this
version iterates the window in its natural ascending order. -/
def tomo_auto_centre_diffs (s : CtState) (window : ℕ) : List ℚ :=
  (winRangeList (window / 2)).map fun i =>
    centreVarAt (tomoCentreRef s window) (tomoCentreFlipped s) (window / 2) i

/-- The centre offset TomoScan.auto_centre stores (lines 144-145). -/
def tomo_auto_centre_offset (s : CtState) (window : ℕ) : ℤ :=
  (winRangeList (window / 2)).getD
    (argminIdx (tomo_auto_centre_diffs s window)) 0

/-- State effect of TomoScan.auto_centre. -/
def tomo_auto_centre (s : CtState) (window : ℕ) : CtState :=
  { s with cor_offset := tomo_auto_centre_offset s window }

/-- The alignment residual TomoScan.auto_centre evaluates at offset o
(the quantity the claim says the returned offset minimises). -/
def tomoCentreVar (s : CtState) (window : ℕ) (o : ℤ) : ℚ :=
  centreVarAt (tomoCentreRef s window) (tomoCentreFlipped s) (window / 2) o

/-- The alignment residual LoadProjections.auto_centre evaluates at shift o
(the quantity the claim says the returned offset minimises). -/
def loadCentreVar (s : CtState) (window dsy : ℕ) (o : ℤ) : ℚ :=
  centreVarAt (loadCentreRef s window dsy) (loadCentreFlipped s dsy) (window / 2) o

/-- The centre-of-rotation column slicing at the start of reconstruct
(load_scan.py lines 239-242): drop cor_offset columns from the left when
the offset is nonnegative, else |cor_offset| columns from the right. -/
def corSliceFrame (off : ℤ) (f : Mat) : Mat :=
  if 0 ≤ off then f.map (pySlice (some off) none)
  else f.map (pySlice none (some off))

/-- The multi-rotation averaging branch of reconstruct (load_scan.py lines
244-249).  numpy reshapes the post-p0 frames to (H, W, num_images, rots)
in C order, so averaged slot k holds the CONSECUTIVE frames
p0 + k*rots + r for r < rots (not the frames k, k + num_images, ... at the
same angular position), and the mean is taken over that group; trailing
frames that do not fill a group are dropped by the slice. -/
def averagedFrames (frames : Stack) (p0 P : ℕ) : Stack :=
  let rots := (frames.length - p0) / P
  (List.range P).map fun k =>
    match (List.range rots).map (fun r => frames.getD (p0 + k * rots + r) []) with
    | [] => []
    | f :: fs => (fs.foldl matAdd f).map fun r => r.map (· / (rots : ℚ))

/-- The frame selection of reconstruct before the optional crop: column
recentring, then either the averaging branch or the plain slice
`images[:, :, p0 : num_images + p0]` (load_scan.py lines 239-251). -/
def selectFrames (s : CtState) (average : Bool) : Stack :=
  let images := s.im_stack.map (corSliceFrame s.cor_offset)
  let P := s.num_images.getD 0
  if average then averagedFrames images s.p0 P
  else (images.drop s.p0).take P

/-- Application of the stored crop bounds `images[top:bottom, left:right]`
(load_scan.py lines 255-256). -/
def cropFrame (c : Option ℤ × Option ℤ × Option ℤ × Option ℤ) (f : Mat) : Mat :=
  (pySlice c.2.2.1 c.2.2.2 f).map (pySlice c.1 c.2.1)

/-- The frames submitted to the per-slice loop of reconstruct (load_scan.py
lines 239-269): frame selection, then - only when crop is set - the crop
bounds followed by the (dh, dw, 1) local-mean downscale, then the optional
median filter.  scipy.signal.medfilt is one of the external filtering
primitives of the specification and is passed in as `mf`. -/
def reconFrames (mf : Mat → Mat) (s : CtState) (average crop medianFilter : Bool)
    (ds : ℕ × ℕ) : Stack :=
  let images := selectFrames s average
  let images2 :=
    if crop then images.map fun fr => downscale2 ds.1 ds.2 (cropFrame s.crop fr)
    else images
  if medianFilter then images2.map mf else images2

/-- The sinogram of row j: `np.squeeze(images[j, :, :])` re-indexed
frame-major (the numpy array is its transpose; the reconstruction strategy
is abstract, so the orientation is a pure convention). -/
def sinoAt (frames : Stack) (j : ℕ) : Mat := frames.map fun fr => fr.getD j []

/-- The reconstructed volume as a function of the per-slice reconstruction
strategy (fbp / sart / visual hulls), one slice per row index. -/
def reconVolume (strat : Mat → Mat) (frames : Stack) : List Mat :=
  (List.range (frames.getD 0 []).length).map fun j => strat (sinoAt frames j)

/-- Region write-back for the median-filter aliasing effect: with
average=False and crop=False, `images` is a numpy VIEW of im_stack, so
`images[:, :, i] = medfilt(...)` writes the filtered frames back into the
stored stack over the cor-sliced column region. -/
def writeCorRegion (off : ℤ) (newFr orig : Mat) : Mat :=
  if 0 ≤ off then List.zipWith (fun nr orow => orow.take off.toNat ++ nr) newFr orig
  else List.zipWith (fun nr orow => nr ++ orow.drop (orow.length - (-off).toNat)) newFr orig

/-- Effect of LoadProjections.reconstruct on the stored im_stack: when
average=False, crop=False and median_filter=True the filtered frames are
written back through the view (frames p0 .. p0+num_images-1, cor-sliced
column region); in every other case the stack storage is never written. -/
def reconStackEffect (mf : Mat → Mat) (s : CtState)
    (average crop medianFilter : Bool) : Stack :=
  if average = false ∧ crop = false ∧ medianFilter = true then
    let P := s.num_images.getD 0
    (List.range s.im_stack.length).map fun t =>
      let fr := s.im_stack.getD t []
      if s.p0 ≤ t ∧ t < s.p0 + P then
        writeCorRegion s.cor_offset (mf (corSliceFrame s.cor_offset fr)) fr
      else fr
  else s.im_stack

/-- The crop_circle side length of reconstruct (load_scan.py lines
324-326): `w = int((recon_width**2 / 2)**0.5)` is the floor of
sqrt(recon_width^2 / 2) (for any achievable width the float computation is
exact enough that int() truncation equals the mathematical floor, and
floor(sqrt(k + 1/2)) = Nat.sqrt k), decremented by one when its parity
differs from recon_width. -/
def cropCircleW (rw : ℕ) : ℤ :=
  if ((Nat.sqrt (rw * rw / 2) : ℤ) - (rw : ℤ)) % 2 = 0 then
    (Nat.sqrt (rw * rw / 2) : ℤ)
  else (Nat.sqrt (rw * rw / 2) : ℤ) - 1

/-- The left/top margin `w0 = int((recon_width - w) / 2)` of the circular
crop (line 327); rw - w is even so the float division is exact. -/
def cropCircleW0 (rw : ℕ) : ℤ := ((rw : ℤ) - cropCircleW rw) / 2

/-- The circular crop applied to one reconstructed slice:
`slice[w0:wf, w0:wf]` with wf = w0 + w (lines 327-329). -/
def cropCircleSlice (rw : ℕ) (m : Mat) : Mat :=
  (pySlice (some (cropCircleW0 rw)) (some (cropCircleW0 rw + cropCircleW rw)) m).map
    (pySlice (some (cropCircleW0 rw)) (some (cropCircleW0 rw + cropCircleW rw)))

/-- Transmission-to-absorption conversion `-np.log(sino + 0.00000001)` of
visualhulls_recon (load_scan.py line 345). -/
noncomputable def neglog (v : ℚ) : ℝ := -Real.log ((v : ℝ) + 1 / 100000000)

open Classical in
/-- One entry of binarise_sino's thresholding `sino[orig_sino > threshold] = 1`
(line 365), applied to an absorption value. -/
noncomputable def binEntry (t : ℚ) (x : ℝ) : ℚ := if (t : ℝ) < x then 1 else 0

/-- The raw binary silhouette matrix of visualhulls_recon: the input
sinogram converted to absorption, transposed, and thresholded (lines
345-346 and 363-365; elementwise conversion commutes with the transpose,
so the transpose is taken on the rational input). -/
noncomputable def binarise0 (sino : Mat) (t : ℚ) : Mat :=
  (sino.transpose).map fun r => r.map fun v => binEntry t (neglog v)

/-- Insertion into a sorted list (ascending), for the rank statistic of the
2x2 median filter. -/
def insertSorted (x : ℚ) : List ℚ → List ℚ
  | [] => [x]
  | y :: ys => if x ≤ y then x :: y :: ys else y :: insertSorted x ys

/-- Insertion sort (ascending). -/
def sortQ (l : List ℚ) : List ℚ := l.foldl (fun acc x => insertSorted x acc) []

/-- The rank statistic of scipy.ndimage.median_filter with size=2: rank
4 // 2 = 2, i.e. the third smallest of the four window values. -/
def rank2of4 (a b c d : ℚ) : ℚ := (sortQ [a, b, c, d]).getD 2 0

/-- scipy.ndimage.median_filter(·, size=2) (line 366): for output pixel
(i, j) the window is {i-1, i} x {j-1, j} with the default 'reflect'
boundary (index -1 reflects to 0, which is what the clamping Nat
subtraction gives), and the filter takes the rank-2 element of the four. -/
def medfilt2 (a : Mat) : Mat :=
  (List.range a.length).map fun i =>
    (List.range (a.getD i []).length).map fun j =>
      rank2of4 ((a.getD (i - 1) []).getD (j - 1) 0) ((a.getD (i - 1) []).getD j 0)
        ((a.getD i []).getD (j - 1) 0) ((a.getD i []).getD j 0)

/-- binarise_sino applied inside visualhulls_recon (line 346): threshold
the transposed absorption sinogram, then the 2-wide median filter. -/
noncomputable def hullMask (sino : Mat) (t : ℚ) : Mat := medfilt2 (binarise0 sino t)

/-- np.deg2rad. -/
noncomputable def deg2rad (θ : ℚ) : ℝ := (θ : ℝ) * Real.pi / 180

/-- Conversion of a float to int in numpy's `.astype('int')`: truncation
toward zero. -/
noncomputable def truncInt (r : ℝ) : ℤ := if 0 ≤ r then ⌊r⌋ else ⌈r⌉

/-- The detector column a cell (row i, column j) projects to under view
angle θ: `_mapping_array` (lines 369-372, meshgrid gives x[i][j] = j -
centre and y[i][j] = i - centre) followed by the int cast, centre shift and
clip of lines 353-354. -/
noncomputable def mapIdxAt (W centre : ℕ) (θ : ℝ) (i j : ℕ) : ℕ :=
  let u := truncInt (((j : ℝ) - centre) * Real.cos θ - ((i : ℝ) - centre) * Real.sin θ)
      + centre
  (max 0 (min u ((W : ℤ) - 1))).toNat

/-- One cell of the visual-hull accumulator after all views (lines
349-356): starting from 1, each view v subtracts 1 - silhouette[v][u]
where u is the cell's projected detector column. -/
noncomputable def hullAccumCell (mask : Mat) (angles : List ℚ)
    (numImages W centre i j : ℕ) : ℚ :=
  1 - ((List.range numImages).map fun v =>
        1 - (mask.getD v []).getD
              (mapIdxAt W centre (deg2rad (angles.getD v 0)) i j) 0).sum

/-- The full accumulator matrix of visualhulls_recon, of side
`data_shape = (sino.shape[1], sino.shape[1])` - after the transpose that
is the number of rows of the input sinogram - with
`centre = data_shape[0] // 2` (lines 347-356). -/
noncomputable def visualhulls_full (st : CtState) (sino : Mat) (t : ℚ) : Mat :=
  let m := hullMask sino t
  let W := sino.length
  (List.range W).map fun i => (List.range W).map fun j =>
    hullAccumCell m (st.angles.getD []) (st.num_images.getD 0) W (W / 2) i j

/-- Maximum pixel of a matrix (np.max); 0 when empty. -/
def matMaxQ (a : Mat) : ℚ :=
  match matFlat a with
  | [] => 0
  | x :: xs => xs.foldl max x

/-- Minimum pixel of a matrix (np.min); 0 when empty. -/
def matMinQ (a : Mat) : ℚ :=
  match matFlat a with
  | [] => 0
  | x :: xs => xs.foldl min x

/-- LoadProjections.visualhulls_recon (load_scan.py lines 344-360).  After
accumulation: `data_range = full.max() - full.min()`, then
`full += data_range // 4` - numpy FLOOR division - and finally every cell
below 0.5 is zeroed. -/
noncomputable def visualhulls_recon (st : CtState) (sino : Mat) (t : ℚ) : Mat :=
  let full := visualhulls_full st sino t
  let c : ℚ := ((⌊(matMaxQ full - matMinQ full) / 4⌋ : ℤ) : ℚ)
  (full.map fun r => r.map fun v => v + c).map fun r =>
    r.map fun v => if v < 1 / 2 then 0 else v

/-- The final step of visualhulls_recon exactly as claim C2 words it:
the accumulator (1 minus the number of views whose silhouette is
background at the cell's projected column), plus range / 4 as an EXACT
division, thresholded at 0.5.  Stated from the claim for comparison with
`visualhulls_recon`. -/
noncomputable def visualhulls_spec_exact (st : CtState) (sino : Mat) (t : ℚ) : Mat :=
  let m := hullMask sino t
  let W := sino.length
  let accM : Mat := (List.range W).map fun i => (List.range W).map fun j =>
    1 - (((List.range (st.num_images.getD 0)).filter fun v =>
      (m.getD v []).getD
        (mapIdxAt W (W / 2) (deg2rad ((st.angles.getD []).getD v 0)) i j) 0 = 0).length : ℚ)
  let c : ℚ := (matMaxQ accM - matMinQ accM) / 4
  accM.map fun r => r.map fun v => if v + c < 1 / 2 then 0 else v + c

/-- The final step of visualhulls_recon as claim C2 words it, with the one
amendment the code forces: the bias added to every cell is
floor(range / 4) (numpy float floor division), not range / 4. -/
noncomputable def visualhulls_spec_floor (st : CtState) (sino : Mat) (t : ℚ) : Mat :=
  let m := hullMask sino t
  let W := sino.length
  let accM : Mat := (List.range W).map fun i => (List.range W).map fun j =>
    1 - (((List.range (st.num_images.getD 0)).filter fun v =>
      (m.getD v []).getD
        (mapIdxAt W (W / 2) (deg2rad ((st.angles.getD []).getD v 0)) i j) 0 = 0).length : ℚ)
  let c : ℚ := ((⌊(matMaxQ accM - matMinQ accM) / 4⌋ : ℤ) : ℚ)
  accM.map fun r => r.map fun v => if v + c < 1 / 2 then 0 else v + c

/-- The multi-rotation averaging exactly as claim C4 and the specification
describe it: averaged slot k is the mean over the complete rotations of
the frames p0 + k, p0 + num_images + k, p0 + 2*num_images + k, ... (same
angular position across rotations).  Stated from the claim for comparison
with `averagedFrames` (the code's C-order reshape). -/
def averageByAngle (frames : Stack) (p0 P : ℕ) : Stack :=
  let rots := (frames.length - p0) / P
  (List.range P).map fun k =>
    match (List.range rots).map (fun r => frames.getD (p0 + r * P + k) []) with
    | [] => []
    | f :: fs => (fs.foldl matAdd f).map fun r => r.map (· / (rots : ℚ))

/-- Empty base object state: the field values after `__init__` of
LoadProjections (load_scan.py lines 32-37), with an empty stack slot to be
filled per scenario. -/
def baseState : CtState :=
  { p0 := 0, cor_offset := 0, num_images := none, angles := none,
    crop := (none, none, none, none), im_stack := [] }

/-- A 1x2 frame of zeros. -/
def zeroF : Mat := [[0, 0]]

/-- A 1x2 frame differing from `zeroF`. -/
def tenF : Mat := [[10, 0]]

/-- A perfectly periodic stack of period 4 (frames 0 and 4 identical, all
other frames at positive deviation from frame 0), 8 frames long. -/
def periodicStack : Stack := [zeroF, tenF, tenF, tenF, zeroF, tenF, tenF, tenF]

/-- Scenario state for the periodic stack. -/
def periodicState : CtState := { baseState with im_stack := periodicStack }

/-- A stack of four identical frames: its difference curve is identically
zero, so no strict relative minimum exists. -/
def constState : CtState :=
  { baseState with im_stack := [zeroF, zeroF, zeroF, zeroF] }

/-- Scenario for the centre-calibration claim: two 2x4 frames; the flipped
180-degree frame aligns with the reference exactly at shift 0. -/
def centreState : CtState :=
  { baseState with
    im_stack := [[[0, 0, 0, 0], [0, 0, 0, 0]], [[5, 0, 0, 9], [5, 0, 0, 9]]],
    num_images := some 2 }

/-- Scenario for the averaging claim: four single-pixel frames 1, 3, 5, 7
with num_images = 2 (two full rotations). -/
def avgState : CtState :=
  { baseState with im_stack := [[[1]], [[3]], [[5]], [[7]]], num_images := some 2 }

/-- Scenario for the stack-immutability claim: three single-pixel frames. -/
def threeState : CtState :=
  { baseState with im_stack := [[[1]], [[2]], [[3]]] }

/-- Scenario sinogram for the visual-hull claim: detector width 2, one
view; transmission 1 (clear) at column 0 and 1/100 (opaque) at column 1. -/
def hullSino : Mat := [[1], [1 / 100]]

/-- Scenario state for the visual-hull claim: a single view at angle 0. -/
def hullState : CtState :=
  { baseState with num_images := some 1, angles := some [0] }

/-- The justification for carrying variances instead of standard
deviations: comparisons of square roots of nonnegative quantities agree
with comparisons of the quantities themselves, so argrelmin/argmin over
np.std curves equal argrelmin/argmin over the `qVar` curves. -/
theorem sqrt_lt_sqrt_iff_qvar (a b : ℚ) (ha : 0 ≤ a) :
    Real.sqrt a < Real.sqrt b ↔ (a : ℝ) < b :=
  Real.sqrt_lt_sqrt_iff (by exact_mod_cast ha)

/-- Variances are nonnegative, so `sqrt_lt_sqrt_iff_qvar` applies to every
comparison the embedded code performs. -/
theorem qVar_nonneg (xs : List ℚ) : 0 ≤ qVar xs := by
  unfold qVar qMean
  apply div_nonneg _ (by positivity)
  apply List.sum_nonneg
  intro y hy
  simp only [List.mem_map] at hy
  obtain ⟨x, -, rfl⟩ := hy
  positivity

/-- Claim C6 is false as stated: calling set_angles with ang_range = 90
raises the error, but p0 has already been overwritten (from 0 to 7) when
the assert fires, so calibration state does change. -/
theorem set_angles_claim_cex :
    (set_angles baseState 10 90 7).2 = some PyErr.assertionError ∧
    (set_angles baseState 10 90 7).1.p0 = 7 ∧ baseState.p0 = 0 := by decide

/-- Claim C6 amended: with ang_range outside {180, 360}, set_angles (and
the non-interactive manual_set_angles of tomo_scan) raises AssertionError
- the code's realisation of the spec's InvalidRangeError - and leaves
num_images and angles unchanged, but p0 is overwritten with the p0
argument before validation. -/
theorem set_angles_invalid_range_effect (s : CtState) (ni : ℕ) (ar : ℚ) (p0 : ℕ)
    (h : ¬(ar = 180 ∨ ar = 360)) :
    set_angles s ni ar p0 = ({ s with p0 := p0 }, some PyErr.assertionError) ∧
    (set_angles s ni ar p0).1.num_images = s.num_images ∧
    (set_angles s ni ar p0).1.angles = s.angles ∧
    (set_angles s ni ar p0).1.p0 = p0 ∧
    manual_set_angles s p0 ni ar = ({ s with p0 := p0 }, some PyErr.assertionError) := by
  refine ⟨?_, ?_, ?_, ?_, ?_⟩ <;> simp [set_angles, manual_set_angles, h]

/-- Witness for `set_angles_invalid_range_effect` at ang_range = 90. -/
theorem set_angles_invalid_range_effect_witness :
    ¬((90 : ℚ) = 180 ∨ (90 : ℚ) = 360) ∧
    set_angles baseState 3 90 5 = ({ baseState with p0 := 5 }, some PyErr.assertionError) :=
  ⟨by decide, (set_angles_invalid_range_effect baseState 3 90 5 (by decide)).1⟩

unseal Rat.add Rat.mul Rat.inv Rat.sub in
/-- Claim C7 is false as stated: on a stack with no qualifying relative
minimum the failure is an IndexError (indexing the empty minima array),
not a dedicated CalibrationError. -/
theorem auto_set_angles_error_kind_cex :
    argrelmin (diffCurve constState.im_stack 0) (2 / 2) = [] ∧
    (auto_set_angles constState 2 0).2 = some PyErr.indexError ∧
    (auto_set_angles constState 2 0).2 ≠ some PyErr.calibrationError := by decide

unseal Rat.add Rat.mul Rat.inv Rat.sub in
/-- Claim C7 amended: when the difference curve has no qualifying relative
minimum (and the order argument is accepted by scipy), auto_set_angles
fails with an IndexError; p0 is already updated when it fires. -/
theorem auto_set_angles_no_min_effect (s : CtState) (est p0 : ℕ)
    (h1 : 1 ≤ est / 2)
    (h2 : argrelmin (diffCurve s.im_stack p0) (est / 2) = []) :
    auto_set_angles s est p0 = ({ s with p0 := p0 }, some PyErr.indexError) := by
  have h3 : ¬(est / 2 < 1) := by omega
  simp [auto_set_angles, h3, h2]

unseal Rat.add Rat.mul Rat.inv Rat.sub in
/-- Witness for `auto_set_angles_no_min_effect` on the constant stack. -/
theorem auto_set_angles_no_min_effect_witness :
    (1 ≤ 2 / 2 ∧ argrelmin (diffCurve constState.im_stack 0) (2 / 2) = []) ∧
    auto_set_angles constState 2 0 = ({ constState with p0 := 0 }, some PyErr.indexError) :=
  ⟨⟨by decide, by decide⟩,
    auto_set_angles_no_min_effect constState 2 0 (by decide) (by decide)⟩

unseal Rat.add Rat.mul Rat.inv Rat.sub in
/-- Claim C9 is false as stated: TomoScan.manual_set_angles in
non-interactive mode succeeds and truncates the stored im_stack. -/
theorem im_stack_claim_cex :
    (manual_set_angles threeState 0 2 360).2 = none ∧
    (manual_set_angles threeState 0 2 360).1.im_stack ≠ threeState.im_stack := by decide

/-- Claim C9 amended: set_angles, auto_set_angles, set_centre, set_crop and
both auto_centre variants never write the stored stack, and reconstruct
leaves it unchanged except in the aliasing case average=False, crop=False,
median_filter=True (where the filtered frames are written back through a
numpy view); tomo_scan's non-interactive manual_set_angles however
truncates the stack to its first num_images frames. -/
theorem im_stack_preservation_amended (s : CtState) (ni p0m : ℕ) (ar : ℚ)
    (cor : ℤ) (wdt tp bt : ℤ) (est p0a : ℕ) (window dsy : ℕ) (mf : Mat → Mat)
    (average crop medianFilter : Bool)
    (har : ar = 180 ∨ ar = 360)
    (hrec : crop = true ∨ medianFilter = false ∨ average = true) :
    (set_angles s ni ar p0m).1.im_stack = s.im_stack ∧
    (auto_set_angles s est p0a).1.im_stack = s.im_stack ∧
    (set_centre s cor).im_stack = s.im_stack ∧
    (set_crop s wdt tp bt).im_stack = s.im_stack ∧
    (load_auto_centre s window dsy).im_stack = s.im_stack ∧
    (tomo_auto_centre s window).im_stack = s.im_stack ∧
    reconStackEffect mf s average crop medianFilter = s.im_stack ∧
    (manual_set_angles s p0m ni ar).1.im_stack = s.im_stack.take ni := by
  have hc : ¬(average = false ∧ crop = false ∧ medianFilter = true) := by
    rcases hrec with h | h | h <;> simp [h]
  refine ⟨?_, ?_, rfl, rfl, rfl, rfl, ?_, ?_⟩
  · unfold set_angles; split <;> rfl
  · by_cases h : est / 2 < 1
    · simp [auto_set_angles, h]
    · cases hm : argrelmin (diffCurve s.im_stack p0a) (est / 2) <;>
        simp [auto_set_angles, h, hm]
  · simp [reconStackEffect, hc]
  · rcases har with h | h <;> simp [manual_set_angles, h]

/-- Witness for `im_stack_preservation_amended` on the three-frame stack. -/
theorem im_stack_preservation_amended_witness :
    (((360 : ℚ) = 180 ∨ (360 : ℚ) = 360) ∧
      ((true : Bool) = true ∨ (false : Bool) = false ∨ (false : Bool) = true)) ∧
    ((set_angles threeState 2 360 5).1.im_stack = threeState.im_stack ∧
      (auto_set_angles threeState 4 0).1.im_stack = threeState.im_stack ∧
      (set_centre threeState 1).im_stack = threeState.im_stack ∧
      (set_crop threeState 2 3 4).im_stack = threeState.im_stack ∧
      (load_auto_centre threeState 2 2).im_stack = threeState.im_stack ∧
      (tomo_auto_centre threeState 2).im_stack = threeState.im_stack ∧
      reconStackEffect id threeState false true false = threeState.im_stack ∧
      (manual_set_angles threeState 5 2 360).1.im_stack = threeState.im_stack.take 2) :=
  ⟨⟨Or.inr rfl, Or.inl rfl⟩,
    im_stack_preservation_amended threeState 2 5 360 1 2 3 4 4 0 2 2 id false true false
      (Or.inr rfl) (Or.inl rfl)⟩

unseal Rat.add Rat.mul Rat.inv Rat.sub in
/-- Claim C4: the code's averaging branch at the failing input (four
single-pixel frames 1, 3, 5, 7, p0 = 0, num_images = 2, two rotations):
the claimed by-angle grouping gives slots (1+5)/2 = 3 and (3+7)/2 = 5, but
the C-order reshape averages consecutive frames, giving (1+3)/2 = 2 and
(5+7)/2 = 6. -/
theorem reconstruct_average_grouping_bug :
    selectFrames avgState true = [[[2]], [[6]]] ∧
    averageByAngle avgState.im_stack 0 2 = [[[3]], [[5]]] ∧
    selectFrames avgState true ≠ averageByAngle avgState.im_stack 0 2 := by decide

/-- Claim C10: with crop=False the downsample argument does not influence
the frames submitted to per-slice reconstruction - hence not the volume,
whatever the reconstruction strategy - and without the median filter the
submitted frames are exactly the selected full-resolution frames. -/
theorem reconstruct_downsample_no_effect_without_crop (mf : Mat → Mat)
    (s : CtState) (average medianFilter : Bool) (ds ds' : ℕ × ℕ)
    (strat : Mat → Mat) :
    reconVolume strat (reconFrames mf s average false medianFilter ds) =
      reconVolume strat (reconFrames mf s average false medianFilter ds') ∧
    reconFrames mf s average false false ds = selectFrames s average := by
  exact ⟨rfl, rfl⟩

/-- Claim C8 is false as stated: num_images = 1 is a successful manual
calibration (the code validates only ang_range), but the stored angle list
is [0], whose last element is neither 180 nor 360. -/
theorem angles_invariant_claim_cex :
    (set_angles baseState 1 360 5).2 = none ∧
    (set_angles baseState 1 360 5).1.num_images = some 1 ∧
    (set_angles baseState 1 360 5).1.angles = some [0] ∧
    ¬(([0] : List ℚ).getD 0 0 = 360 ∨ ([0] : List ℚ).getD 0 0 = 180) := by decide

/-- linspace produces exactly n samples. -/
theorem linspace_length (a b : ℚ) (n : ℕ) : (linspace a b n).length = n := by
  simp [linspace]

/-- Closed form of a linspace entry. -/
theorem linspace_getElem (a b : ℚ) (n i : ℕ) (h : i < (linspace a b n).length) :
    (linspace a b n)[i] = if n ≤ 1 then a else a + (b - a) * i / ((n : ℚ) - 1) := by
  simp [linspace]

/-- The first linspace sample is the start point. -/
theorem linspace_head (a b : ℚ) (n : ℕ) (h : 1 ≤ n) :
    (linspace a b n).getD 0 0 = a := by
  have hl : 0 < (linspace a b n).length := by rw [linspace_length]; omega
  rw [List.getD_eq_getElem _ _ hl, linspace_getElem]
  by_cases h1 : n ≤ 1 <;> simp [h1]

/-- The last linspace sample is the stop point (n >= 2). -/
theorem linspace_last (a b : ℚ) (n : ℕ) (h : 2 ≤ n) :
    (linspace a b n).getD (n - 1) 0 = b := by
  have hl : n - 1 < (linspace a b n).length := by rw [linspace_length]; omega
  rw [List.getD_eq_getElem _ _ hl, linspace_getElem]
  rw [if_neg (by omega)]
  have hc : ((n - 1 : ℕ) : ℚ) = (n : ℚ) - 1 := by
    have : (1 : ℕ) ≤ n := by omega
    push_cast [this]
    ring
  have hne : (n : ℚ) - 1 ≠ 0 := by
    have : (2 : ℚ) ≤ (n : ℚ) := by exact_mod_cast h
    intro hz
    nlinarith
  rw [hc, mul_div_assoc, div_self hne, mul_one]
  ring

/-- linspace is strictly increasing when the endpoints are ordered. -/
theorem linspace_pairwise (a b : ℚ) (n : ℕ) (hab : a < b) :
    List.Pairwise (· < ·) (linspace a b n) := by
  by_cases h1 : n ≤ 1
  · interval_cases n <;> simp [linspace]
  · unfold linspace
    rw [List.pairwise_map]
    refine (List.pairwise_lt_range n).imp ?_
    intro i j hij
    simp only [if_neg h1]
    have hd : (0 : ℚ) < (n : ℚ) - 1 := by
      have : (2 : ℚ) ≤ (n : ℚ) := by exact_mod_cast (by omega : 2 ≤ n)
      linarith
    have hij' : (i : ℚ) < (j : ℚ) := by exact_mod_cast hij
    have h2 : (b - a) * i < (b - a) * j :=
      mul_lt_mul_of_pos_left hij' (sub_pos.mpr hab)
    exact add_lt_add_left ((div_lt_div_iff_of_pos_right hd).mpr h2) a

/-- linspaceInt produces exactly n samples. -/
theorem linspaceInt_length (a b : ℚ) (n : ℕ) : (linspaceInt a b n).length = n := by
  simp [linspaceInt, linspace_length]

/-- linspaceInt is weakly increasing (the int truncation can merge
neighbouring values). -/
theorem linspaceInt_pairwise (a b : ℚ) (n : ℕ) (hab : a < b) :
    List.Pairwise (· ≤ ·) (linspaceInt a b n) := by
  unfold linspaceInt
  rw [List.pairwise_map]
  refine (linspace_pairwise a b n hab).imp ?_
  intro x y hxy
  exact_mod_cast Int.floor_le_floor hxy.le

/-- The first linspaceInt sample is the floor of the start point. -/
theorem linspaceInt_head (a b : ℚ) (n : ℕ) (h : 1 ≤ n) :
    (linspaceInt a b n).getD 0 0 = ((⌊a⌋ : ℤ) : ℚ) := by
  have hl : 0 < (linspaceInt a b n).length := by rw [linspaceInt_length]; omega
  rw [List.getD_eq_getElem _ _ hl]
  unfold linspaceInt
  rw [List.getElem_map]
  congr 2
  have hl2 : 0 < (linspace a b n).length := by rw [linspace_length]; omega
  have := linspace_head a b n h
  rwa [List.getD_eq_getElem _ _ hl2] at this

/-- The last linspaceInt sample is the floor of the stop point (n >= 2). -/
theorem linspaceInt_last (a b : ℚ) (n : ℕ) (h : 2 ≤ n) :
    (linspaceInt a b n).getD (n - 1) 0 = ((⌊b⌋ : ℤ) : ℚ) := by
  have hl : n - 1 < (linspaceInt a b n).length := by rw [linspaceInt_length]; omega
  rw [List.getD_eq_getElem _ _ hl]
  unfold linspaceInt
  rw [List.getElem_map]
  congr 2
  have hl2 : n - 1 < (linspace a b n).length := by rw [linspace_length]; omega
  have := linspace_last a b n h
  rwa [List.getD_eq_getElem _ _ hl2] at this

/-- Index 0 of a difference curve is never a relative minimum under the
clipped strict comparison (the comparison against the clipped left
neighbour is the value against itself). -/
theorem relMinAt_zero (d : List ℚ) (order : ℕ) (h : 1 ≤ order) :
    relMinAt d order 0 = false := by
  unfold relMinAt
  rw [List.all_eq_false]
  exact ⟨0, List.mem_range.mpr h, by simp⟩

/-- The first detected relative minimum has index at least 1, so automatic
calibration always stores num_images >= 2. -/
theorem argrelmin_head_pos (d : List ℚ) (order m : ℕ) (rest : List ℕ)
    (h : argrelmin d order = m :: rest) (ho : 1 ≤ order) : 1 ≤ m := by
  have hm : m ∈ argrelmin d order := h ▸ List.mem_cons_self m rest
  rw [argrelmin, List.mem_filter] at hm
  rcases Nat.eq_zero_or_pos m with h0 | h1
  · subst h0
    rw [relMinAt_zero d order ho] at hm
    simp at hm
  · exact h1

/-- Claim C8 amended: for manual calibration with num_images >= 2 and a
valid range, and for every successful automatic calibration, the stored
angle sequence has length num_images, starts at 0, is monotonically
increasing (strictly in manual mode; weakly in automatic mode, whose
dtype=int truncation can merge neighbours), and ends at ang_range
respectively 360.  Automatic mode always stores num_images = m + 1 >= 2. -/
theorem angles_invariant_amended (s s2 : CtState) (ni p0m : ℕ) (ar : ℚ)
    (est p0a m : ℕ) (rest : List ℕ)
    (har : ar = 180 ∨ ar = 360) (hni : 2 ≤ ni)
    (hmin : argrelmin (diffCurve s2.im_stack p0a) (est / 2) = m :: rest)
    (hord : 1 ≤ est / 2) :
    ((set_angles s ni ar p0m).2 = none ∧
      (set_angles s ni ar p0m).1.num_images = some ni ∧
      (set_angles s ni ar p0m).1.angles = some (linspace 0 ar ni) ∧
      (linspace 0 ar ni).length = ni ∧
      (linspace 0 ar ni).getD 0 0 = 0 ∧
      List.Pairwise (· < ·) (linspace 0 ar ni) ∧
      (linspace 0 ar ni).getD (ni - 1) 0 = ar) ∧
    ((auto_set_angles s2 est p0a).2 = none ∧
      (auto_set_angles s2 est p0a).1.num_images = some (m + 1) ∧
      (auto_set_angles s2 est p0a).1.angles = some (linspaceInt 0 360 (m + 1)) ∧
      2 ≤ m + 1 ∧
      (linspaceInt 0 360 (m + 1)).length = m + 1 ∧
      (linspaceInt 0 360 (m + 1)).getD 0 0 = 0 ∧
      List.Pairwise (· ≤ ·) (linspaceInt 0 360 (m + 1)) ∧
      (linspaceInt 0 360 (m + 1)).getD (m + 1 - 1) 0 = 360) := by
  have harpos : (0 : ℚ) < ar := by rcases har with h | h <;> rw [h] <;> norm_num
  have hm1 : 1 ≤ m := argrelmin_head_pos _ _ _ _ hmin hord
  have hcond : ¬(est / 2 < 1) := by omega
  constructor
  · refine ⟨?_, ?_, ?_, linspace_length 0 ar ni, linspace_head 0 ar ni (by omega),
      linspace_pairwise 0 ar ni harpos, linspace_last 0 ar ni hni⟩ <;>
      rcases har with h | h <;> simp [set_angles, h]
  · have h360 : ((⌊(360 : ℚ)⌋ : ℤ) : ℚ) = 360 := by norm_num
    have h0 : ((⌊(0 : ℚ)⌋ : ℤ) : ℚ) = 0 := by norm_num
    refine ⟨?_, ?_, ?_, by omega, linspaceInt_length 0 360 (m + 1),
      h0 ▸ linspaceInt_head 0 360 (m + 1) (by omega),
      linspaceInt_pairwise 0 360 (m + 1) (by norm_num),
      h360 ▸ linspaceInt_last 0 360 (m + 1) (by omega)⟩ <;>
      simp [auto_set_angles, hcond, hmin]

unseal Rat.add Rat.mul Rat.inv Rat.sub in
/-- Witness for `angles_invariant_amended`: manual calibration with 4
images over 360 degrees, automatic calibration on the periodic stack. -/
theorem angles_invariant_amended_witness :
    (((360 : ℚ) = 180 ∨ (360 : ℚ) = 360) ∧ 2 ≤ 4 ∧
      argrelmin (diffCurve periodicState.im_stack 0) (6 / 2) = 4 :: [] ∧
      1 ≤ 6 / 2) ∧
    ((set_angles baseState 4 360 5).2 = none ∧
      (set_angles baseState 4 360 5).1.num_images = some 4 ∧
      (set_angles baseState 4 360 5).1.angles = some (linspace 0 360 4) ∧
      (linspace 0 360 4).length = 4 ∧
      (linspace 0 360 4).getD 0 0 = 0 ∧
      List.Pairwise (· < ·) (linspace 0 360 4) ∧
      (linspace 0 360 4).getD (4 - 1) 0 = 360) ∧
    ((auto_set_angles periodicState 6 0).2 = none ∧
      (auto_set_angles periodicState 6 0).1.num_images = some (4 + 1) ∧
      (auto_set_angles periodicState 6 0).1.angles = some (linspaceInt 0 360 (4 + 1)) ∧
      2 ≤ 4 + 1 ∧
      (linspaceInt 0 360 (4 + 1)).length = 4 + 1 ∧
      (linspaceInt 0 360 (4 + 1)).getD 0 0 = 0 ∧
      List.Pairwise (· ≤ ·) (linspaceInt 0 360 (4 + 1)) ∧
      (linspaceInt 0 360 (4 + 1)).getD (4 + 1 - 1) 0 = 360) :=
  ⟨⟨Or.inr rfl, by omega, by decide, by omega⟩,
    angles_invariant_amended baseState periodicState 4 5 360 6 0 4 []
      (Or.inr rfl) (by omega) (by decide) (by omega)⟩

/-- Splitting List.range at an interior point. -/
theorem range_split (n a : ℕ) (h : a ≤ n) :
    List.range n = List.range a ++ List.range' a (n - a) := by
  rw [List.range_eq_range', List.range_eq_range']
  have h1 := List.range'_append 0 a (n - a) 1
  simp only [one_mul, zero_add] at h1
  have h2 : n - a + a = n := by omega
  rw [h2] at h1
  exact h1.symm

/-- The head of a filtered range is the first index satisfying the
predicate. -/
theorem filter_range_eq_cons (p : ℕ → Bool) (n a : ℕ) (ha : a < n)
    (hpa : p a = true) (hlt : ∀ i, i < a → p i = false) :
    ∃ tl, (List.range n).filter p = a :: tl := by
  rw [range_split n a (by omega), List.filter_append]
  have hnil : (List.range a).filter p = [] := by
    rw [List.filter_eq_nil_iff]
    intro i hi
    rw [hlt i (List.mem_range.mp hi)]
    simp
  rw [hnil]
  have hk : n - a = (n - a - 1) + 1 := by omega
  rw [hk, List.range'_succ, List.filter_cons_of_pos hpa]
  exact ⟨_, rfl⟩

/-- A list of zeros has variance zero. -/
theorem qVar_zeros (xs : List ℚ) (h : ∀ x ∈ xs, x = 0) : qVar xs = 0 := by
  have hs : xs.sum = 0 := List.sum_eq_zero h
  have hm : qMean xs = 0 := by unfold qMean; rw [hs]; simp
  unfold qVar
  simp only [hm, sub_zero]
  have hs2 : (xs.map fun x => x ^ 2).sum = 0 := by
    apply List.sum_eq_zero
    intro y hy
    rw [List.mem_map] at hy
    obtain ⟨x, hx, rfl⟩ := hy
    rw [h x hx]
    norm_num
  unfold qMean
  rw [hs2]
  simp

/-- The deviation of a frame from itself vanishes: identical frames give a
zero entry in the difference curve. -/
theorem frameVarDiff_self (f : Mat) : frameVarDiff f f = 0 := by
  apply qVar_zeros
  intro x hx
  unfold matFlat matSub at hx
  rw [List.mem_flatten] at hx
  obtain ⟨r, hr, hxr⟩ := hx
  rw [List.zipWith_same, List.mem_map] at hr
  obtain ⟨row, -, rfl⟩ := hr
  rw [List.zipWith_same, List.mem_map] at hxr
  obtain ⟨y, -, rfl⟩ := hxr
  exact sub_self y

/-- Entries of the difference curve in closed form. -/
theorem diffCurve_getD (stack : Stack) (p0 m : ℕ) (h : m < stack.length - p0) :
    (diffCurve stack p0).getD m 0 =
      frameVarDiff (stack.getD (p0 + m) []) (stack.getD p0 []) := by
  unfold diffCurve
  have hlen : m < ((stack.drop p0).map
      fun f => frameVarDiff f (stack.getD p0 [])).length := by
    simp only [List.length_map, List.length_drop]
    omega
  rw [List.getD_eq_getElem _ _ hlen, List.getElem_map, List.getElem_drop]
  congr 1
  rw [List.getD_eq_getElem stack [] (show p0 + m < stack.length by omega)]

/-- The length of the difference curve. -/
theorem diffCurve_length (stack : Stack) (p0 : ℕ) :
    (diffCurve stack p0).length = stack.length - p0 := by
  simp [diffCurve]

/-- A number strictly between P and 2P is not a multiple of P. -/
theorem not_dvd_between (P k : ℕ) (h1 : P < k) (h2 : k < 2 * P) : ¬(P ∣ k) := by
  rintro ⟨c, rfl⟩
  rcases Nat.lt_or_ge c 2 with h | h
  · interval_cases c <;> omega
  · have h3 : P * 2 ≤ P * c := Nat.mul_le_mul_left P h
    linarith

/-- A number strictly between 0 and P is not a multiple of P. -/
theorem not_dvd_below (P k : ℕ) (h1 : 0 < k) (h2 : k < P) : ¬(P ∣ k) := by
  rintro ⟨c, rfl⟩
  rcases Nat.eq_zero_or_pos c with h | h
  · rw [h, Nat.mul_zero] at h1
    omega
  · have h3 : P * 1 ≤ P * c := Nat.mul_le_mul_left P h
    linarith

unseal Rat.add Rat.mul Rat.inv Rat.sub in
/-- Claim C1 is false as stated: the periodic stack (period num_images = 4,
frames p0 + 4k identical for every k in range) with p0 = 0 and
est_nproj = 6 satisfies every hypothesis of the claim (est_nproj/2 = 3 is
at most the true period 4), yet auto_set_angles returns num_images = 5,
not 4: the first qualifying local minimum of the difference curve sits at
index 4 (the first recurrence of the reference frame) and the code adds 1
to that index. -/
theorem auto_set_angles_claim_cex :
    periodicState.im_stack.length = 8 ∧
    periodicState.im_stack.getD (0 + 4 * 0) [] = periodicState.im_stack.getD 0 [] ∧
    periodicState.im_stack.getD (0 + 4 * 1) [] = periodicState.im_stack.getD 0 [] ∧
    6 / 2 ≤ 4 ∧
    (auto_set_angles periodicState 6 0).2 = none ∧
    (auto_set_angles periodicState 6 0).1.num_images = some 5 ∧
    (5 : ℕ) ≠ 4 := by decide

/-- Claim C1 amended: on a stack whose frame p0 + P repeats the reference
frame p0 (P >= 2), whose difference curve is strictly positive at every
offset that is not a multiple of P, with at least 2P frames after p0, and
with est_nproj // 2 = P - 1 (the one window half-width that neither
admits spurious early minima nor reaches the zero at offset 0),
auto_set_angles succeeds, the first qualifying local minimum of the
difference curve is exactly P, and the stored num_images is P + 1 - one
more than the true rotation period.  In general the return value is
(index of first qualifying local minimum) + 1, where a minimum qualifies
iff it is strictly smaller than every value within half-width
est_nproj // 2 with boundary indices clipped. -/
theorem auto_set_angles_periodic (s : CtState) (p0 P est : ℕ)
    (hP : 2 ≤ P)
    (hord : est / 2 = P - 1)
    (hlen : p0 + 2 * P ≤ s.im_stack.length)
    (hper : s.im_stack.getD (p0 + P) [] = s.im_stack.getD p0 [])
    (hpos : ∀ k, k < s.im_stack.length - p0 → ¬(P ∣ k) →
      0 < (diffCurve s.im_stack p0).getD k 0) :
    (∃ tl, argrelmin (diffCurve s.im_stack p0) (est / 2) = P :: tl) ∧
    (auto_set_angles s est p0).2 = none ∧
    (auto_set_angles s est p0).1.num_images = some (P + 1) := by
  have hdlen : (diffCurve s.im_stack p0).length = s.im_stack.length - p0 :=
    diffCurve_length _ _
  set d := diffCurve s.im_stack p0 with hd
  have hcurve : 2 * P ≤ d.length := by omega
  have hdP : d.getD P 0 = 0 := by
    rw [hd, diffCurve_getD s.im_stack p0 P (by omega), hper, frameVarDiff_self]
  have hd0 : d.getD 0 0 = 0 := by
    rw [hd, diffCurve_getD s.im_stack p0 0 (by omega), Nat.add_zero,
      frameVarDiff_self]
  have hposd : ∀ k, k < d.length → ¬(P ∣ k) → 0 < d.getD k 0 := by
    intro k hk hndvd
    exact hpos k (by omega) hndvd
  have hminP : relMinAt d (P - 1) P = true := by
    unfold relMinAt
    rw [List.all_eq_true]
    intro o ho
    rw [List.mem_range] at ho
    have hm : min (P + (o + 1)) (d.length - 1) = P + (o + 1) := by omega
    rw [hm, Bool.and_eq_true, decide_eq_true_eq, decide_eq_true_eq, hdP]
    have hplus : 0 < d.getD (P + (o + 1)) 0 :=
      hposd _ (by omega) (not_dvd_between P _ (by omega) (by omega))
    have hminus : 0 < d.getD (P - (o + 1)) 0 :=
      hposd _ (by omega) (not_dvd_below P _ (by omega) (by omega))
    exact ⟨hplus, hminus⟩
  have hnolt : ∀ i, i < P → relMinAt d (P - 1) i = false := by
    intro i hi
    rcases Nat.eq_zero_or_pos i with h0 | h1
    · subst h0
      exact relMinAt_zero d (P - 1) (by omega)
    · unfold relMinAt
      rw [List.all_eq_false]
      refine ⟨i - 1, List.mem_range.mpr (by omega), ?_⟩
      have hsub : i - (i - 1 + 1) = 0 := by omega
      rw [Bool.and_eq_true, decide_eq_true_eq, decide_eq_true_eq, hsub, hd0]
      rintro ⟨-, hlt⟩
      have hipos : 0 < d.getD i 0 :=
        hposd _ (by omega) (not_dvd_below P _ h1 hi)
      linarith
  have hfilter : ∃ tl, argrelmin d (est / 2) = P :: tl := by
    rw [hord]
    unfold argrelmin
    exact filter_range_eq_cons _ _ _ (by omega) hminP hnolt
  obtain ⟨tl, htl⟩ := hfilter
  have hcond : ¬(est / 2 < 1) := by omega
  refine ⟨⟨tl, htl⟩, ?_, ?_⟩ <;> simp [auto_set_angles, hcond, ← hd, htl]

unseal Rat.add Rat.mul Rat.inv Rat.sub in
/-- Witness for `auto_set_angles_periodic` on the periodic stack (period
4, est_nproj = 6): the detection returns 4 + 1. -/
theorem auto_set_angles_periodic_witness :
    (2 ≤ 4 ∧ 6 / 2 = 4 - 1 ∧ 0 + 2 * 4 ≤ periodicState.im_stack.length ∧
      periodicState.im_stack.getD (0 + 4) [] = periodicState.im_stack.getD 0 [] ∧
      (∀ k, k < periodicState.im_stack.length - 0 → ¬(4 ∣ k) →
        0 < (diffCurve periodicState.im_stack 0).getD k 0)) ∧
    ((∃ tl, argrelmin (diffCurve periodicState.im_stack 0) (6 / 2) = 4 :: tl) ∧
      (auto_set_angles periodicState 6 0).2 = none ∧
      (auto_set_angles periodicState 6 0).1.num_images = some (4 + 1)) :=
  ⟨⟨by omega, by decide, by decide, by decide, by decide⟩,
    auto_set_angles_periodic periodicState 0 4 6 (by omega) (by decide)
      (by decide) (by decide) (by decide)⟩

/-- isMinAt unfolded to a proposition. -/
theorem isMinAt_iff (l : List ℚ) (i : ℕ) :
    isMinAt l i = true ↔ ∀ j < l.length, l.getD i 0 ≤ l.getD j 0 := by
  unfold isMinAt
  rw [List.all_eq_true]
  constructor
  · intro h j hj
    exact of_decide_eq_true (h j (List.mem_range.mpr hj))
  · intro h j hj
    exact decide_eq_true_eq.mpr (h j (List.mem_range.mp hj))

/-- A nonempty list attains its minimum at some index. -/
theorem exists_isMinAt (l : List ℚ) (hl : l ≠ []) :
    ∃ i, isMinAt l i = true ∧ i < l.length := by
  have hne : (Finset.range l.length).Nonempty :=
    ⟨0, Finset.mem_range.mpr (List.length_pos.mpr hl)⟩
  obtain ⟨i, hi, hmin⟩ :=
    Finset.exists_min_image (Finset.range l.length) (fun j => l.getD j 0) hne
  refine ⟨i, ?_, Finset.mem_range.mp hi⟩
  rw [isMinAt_iff]
  intro j hj
  exact hmin j (Finset.mem_range.mpr hj)

/-- np.argmin characterised: on a nonempty list it is in range, its value
is a minimum, and every strictly earlier index holds a strictly larger
value (first-occurrence tie-break). -/
theorem argminIdx_spec (l : List ℚ) (hl : l ≠ []) :
    argminIdx l < l.length ∧
    (∀ j < l.length, l.getD (argminIdx l) 0 ≤ l.getD j 0) ∧
    (∀ j < argminIdx l, l.getD (argminIdx l) 0 < l.getD j 0) := by
  obtain ⟨i0, hi0, hi0len⟩ := exists_isMinAt l hl
  have hex : ∃ i, isMinAt l i = true := ⟨i0, hi0⟩
  have hpa : isMinAt l (Nat.find hex) = true := Nat.find_spec hex
  have hmin : ∀ j, j < Nat.find hex → isMinAt l j = false := by
    intro j hj
    have := Nat.find_min hex hj
    simpa using this
  have halen : Nat.find hex < l.length := by
    have : Nat.find hex ≤ i0 := Nat.find_min' hex hi0
    omega
  have harg : argminIdx l = Nat.find hex := by
    unfold argminIdx
    obtain ⟨tl, htl⟩ :=
      filter_range_eq_cons (fun i => isMinAt l i) l.length (Nat.find hex) halen hpa hmin
    rw [htl]
    rfl
  rw [harg]
  refine ⟨halen, (isMinAt_iff l _).mp hpa, ?_⟩
  intro j hj
  have hjf : isMinAt l j = false := hmin j hj
  have hnot : ¬(∀ k < l.length, l.getD j 0 ≤ l.getD k 0) := by
    rw [← isMinAt_iff]
    simp [hjf]
  push_neg at hnot
  obtain ⟨k, hk, hkj⟩ := hnot
  have := (isMinAt_iff l _).mp hpa k hk
  linarith

/-- Length of the candidate window. -/
theorem winRangeList_length (half : ℕ) : (winRangeList half).length = 2 * half := by
  simp [winRangeList]

/-- Entries of the candidate window. -/
theorem winRangeList_getElem (half i : ℕ) (h : i < (winRangeList half).length) :
    (winRangeList half)[i] = (i : ℤ) - half := by
  simp [winRangeList]

/-- Membership in the candidate window [-half, half). -/
theorem mem_winRangeList (half : ℕ) (o : ℤ) :
    o ∈ winRangeList half ↔ -(half : ℤ) ≤ o ∧ o < half := by
  unfold winRangeList
  rw [List.mem_map]
  constructor
  · rintro ⟨k, hk, rfl⟩
    rw [List.mem_range] at hk
    omega
  · rintro ⟨h1, h2⟩
    refine ⟨(o + half).toNat, List.mem_range.mpr (by omega), by omega⟩

/-- Entries of the tomo_scan residual curve: the curve lists the residual
at each offset of the window in ascending order. -/
theorem tomo_diffs_getD (s : CtState) (window j : ℕ) (hj : j < 2 * (window / 2)) :
    (tomo_auto_centre_diffs s window).getD j 0 =
      centreVarAt (tomoCentreRef s window) (tomoCentreFlipped s) (window / 2)
        ((j : ℤ) - (window / 2 : ℕ)) := by
  unfold tomo_auto_centre_diffs
  have hl : j < ((winRangeList (window / 2)).map
      fun i => centreVarAt (tomoCentreRef s window) (tomoCentreFlipped s)
        (window / 2) i).length := by
    rw [List.length_map, winRangeList_length]
    omega
  rw [List.getD_eq_getElem _ _ hl, List.getElem_map, winRangeList_getElem]

/-- Entries of the load_scan residual curve: index j of the (reversed)
curve holds the residual at offset half - 1 - j. -/
theorem load_diffs_getD (s : CtState) (window dsy j : ℕ)
    (hj : j < 2 * (window / 2)) :
    (load_auto_centre_diffs s window dsy).getD j 0 =
      centreVarAt (loadCentreRef s window dsy) (loadCentreFlipped s dsy)
        (window / 2) (((window / 2 : ℕ) : ℤ) - 1 - j) := by
  unfold load_auto_centre_diffs
  have hl : j < (((winRangeList (window / 2)).reverse).map
      fun i => centreVarAt (loadCentreRef s window dsy) (loadCentreFlipped s dsy)
        (window / 2) i).length := by
    rw [List.length_map, List.length_reverse, winRangeList_length]
    omega
  have hl2 : j < ((winRangeList (window / 2)).reverse).length := by
    rw [List.length_reverse, winRangeList_length]
    omega
  rw [List.getD_eq_getElem _ _ hl, List.getElem_map, List.getElem_reverse,
    winRangeList_getElem]
  congr 1
  rw [winRangeList_length]
  omega

unseal Rat.add Rat.mul Rat.inv Rat.sub in
/-- Claim C3 is false as stated for LoadProjections.auto_centre: on the
centre scenario the residual at offset 0 is strictly smaller than at the
returned offset -1, so the returned offset does not minimise the residual
(the loop evaluates the reversed window but the result is read from the
unreversed window). -/
theorem load_auto_centre_claim_cex :
    load_auto_centre_offset centreState 2 2 = -1 ∧
    (0 : ℤ) ∈ winRangeList (2 / 2) ∧
    loadCentreVar centreState 2 2 0 < loadCentreVar centreState 2 2 (-1) := by decide

/-- Claim C3 amended: TomoScan.auto_centre returns the first offset in
ascending window order minimising the residual, exactly as claimed;
LoadProjections.auto_centre instead returns -1 - t where t is the LARGEST
residual-minimising offset in the window, because the residual curve is
evaluated over the reversed window while the result is read from the
unreversed one. -/
theorem auto_centre_characterization (s : CtState) (window dsy : ℕ)
    (hw : 1 ≤ window / 2) :
    (tomo_auto_centre_offset s window ∈ winRangeList (window / 2) ∧
      (∀ o ∈ winRangeList (window / 2),
        tomoCentreVar s window (tomo_auto_centre_offset s window) ≤
          tomoCentreVar s window o) ∧
      (∀ o ∈ winRangeList (window / 2), o < tomo_auto_centre_offset s window →
        tomoCentreVar s window (tomo_auto_centre_offset s window) <
          tomoCentreVar s window o)) ∧
    ((-1 - load_auto_centre_offset s window dsy) ∈ winRangeList (window / 2) ∧
      (∀ o ∈ winRangeList (window / 2),
        loadCentreVar s window dsy (-1 - load_auto_centre_offset s window dsy) ≤
          loadCentreVar s window dsy o) ∧
      (∀ o ∈ winRangeList (window / 2),
        -1 - load_auto_centre_offset s window dsy < o →
        loadCentreVar s window dsy (-1 - load_auto_centre_offset s window dsy) <
          loadCentreVar s window dsy o)) := by
  constructor
  · -- tomo_scan version
    have t_len : (tomo_auto_centre_diffs s window).length = 2 * (window / 2) := by
      unfold tomo_auto_centre_diffs
      rw [List.length_map, winRangeList_length]
    have t_ne : tomo_auto_centre_diffs s window ≠ [] := by
      intro h
      rw [h] at t_len
      simp at t_len
      omega
    obtain ⟨t_mlt, t_min, t_tie⟩ := argminIdx_spec _ t_ne
    have t_mlt2 : argminIdx (tomo_auto_centre_diffs s window) < 2 * (window / 2) := by
      omega
    have t_getD : ∀ j, j < 2 * (window / 2) →
        (tomo_auto_centre_diffs s window).getD j 0 =
          tomoCentreVar s window ((j : ℤ) - (window / 2 : ℕ)) := by
      intro j hj
      rw [tomo_diffs_getD s window j hj]
      rfl
    have t_off : tomo_auto_centre_offset s window =
        ((argminIdx (tomo_auto_centre_diffs s window) : ℤ)) - (window / 2 : ℕ) := by
      unfold tomo_auto_centre_offset
      rw [List.getD_eq_getElem _ _ (by rw [winRangeList_length]; omega),
        winRangeList_getElem]
    have hvr : tomoCentreVar s window (tomo_auto_centre_offset s window) =
        (tomo_auto_centre_diffs s window).getD
          (argminIdx (tomo_auto_centre_diffs s window)) 0 := by
      rw [t_off, ← t_getD _ t_mlt2]
    refine ⟨?_, ?_, ?_⟩
    · rw [t_off, mem_winRangeList]
      omega
    · intro o ho
      rw [mem_winRangeList] at ho
      have hj1 : ((o + (window / 2 : ℕ)).toNat : ℤ) = o + (window / 2 : ℕ) := by omega
      have hj2 : (o + (window / 2 : ℕ)).toNat < 2 * (window / 2) := by omega
      have hvo : tomoCentreVar s window o =
          (tomo_auto_centre_diffs s window).getD (o + (window / 2 : ℕ)).toNat 0 := by
        rw [t_getD _ hj2]
        congr 1
        omega
      rw [hvr, hvo]
      exact t_min _ (by omega)
    · intro o ho hlt
      rw [mem_winRangeList] at ho
      have hj1 : ((o + (window / 2 : ℕ)).toNat : ℤ) = o + (window / 2 : ℕ) := by omega
      have hj2 : (o + (window / 2 : ℕ)).toNat < 2 * (window / 2) := by omega
      have hvo : tomoCentreVar s window o =
          (tomo_auto_centre_diffs s window).getD (o + (window / 2 : ℕ)).toNat 0 := by
        rw [t_getD _ hj2]
        congr 1
        omega
      rw [hvr, hvo]
      apply t_tie
      rw [t_off] at hlt
      omega
  · -- load_scan version
    have l_len : (load_auto_centre_diffs s window dsy).length = 2 * (window / 2) := by
      unfold load_auto_centre_diffs
      rw [List.length_map, List.length_reverse, winRangeList_length]
    have l_ne : load_auto_centre_diffs s window dsy ≠ [] := by
      intro h
      rw [h] at l_len
      simp at l_len
      omega
    obtain ⟨l_mlt, l_min, l_tie⟩ := argminIdx_spec _ l_ne
    have l_mlt2 : argminIdx (load_auto_centre_diffs s window dsy) < 2 * (window / 2) := by
      omega
    have l_getD : ∀ j, j < 2 * (window / 2) →
        (load_auto_centre_diffs s window dsy).getD j 0 =
          loadCentreVar s window dsy (((window / 2 : ℕ) : ℤ) - 1 - j) := by
      intro j hj
      rw [load_diffs_getD s window dsy j hj]
      rfl
    have l_off : load_auto_centre_offset s window dsy =
        ((argminIdx (load_auto_centre_diffs s window dsy) : ℤ)) - (window / 2 : ℕ) := by
      unfold load_auto_centre_offset
      rw [List.getD_eq_getElem _ _ (by rw [winRangeList_length]; omega),
        winRangeList_getElem]
    have hvt : loadCentreVar s window dsy
        (-1 - load_auto_centre_offset s window dsy) =
        (load_auto_centre_diffs s window dsy).getD
          (argminIdx (load_auto_centre_diffs s window dsy)) 0 := by
      rw [l_off, l_getD _ l_mlt2]
      congr 1
      ring
    refine ⟨?_, ?_, ?_⟩
    · rw [l_off, mem_winRangeList]
      omega
    · intro o ho
      rw [mem_winRangeList] at ho
      have hj1 : ((((window / 2 : ℕ) : ℤ) - 1 - o).toNat : ℤ) =
          ((window / 2 : ℕ) : ℤ) - 1 - o := by omega
      have hj2 : (((window / 2 : ℕ) : ℤ) - 1 - o).toNat < 2 * (window / 2) := by omega
      have hvo : loadCentreVar s window dsy o =
          (load_auto_centre_diffs s window dsy).getD
            (((window / 2 : ℕ) : ℤ) - 1 - o).toNat 0 := by
        rw [l_getD _ hj2]
        congr 1
        omega
      rw [hvt, hvo]
      exact l_min _ (by omega)
    · intro o ho hlt
      rw [mem_winRangeList] at ho
      have hj1 : ((((window / 2 : ℕ) : ℤ) - 1 - o).toNat : ℤ) =
          ((window / 2 : ℕ) : ℤ) - 1 - o := by omega
      have hj2 : (((window / 2 : ℕ) : ℤ) - 1 - o).toNat < 2 * (window / 2) := by omega
      have hvo : loadCentreVar s window dsy o =
          (load_auto_centre_diffs s window dsy).getD
            (((window / 2 : ℕ) : ℤ) - 1 - o).toNat 0 := by
        rw [l_getD _ hj2]
        congr 1
        omega
      rw [hvt, hvo]
      apply l_tie
      rw [l_off] at hlt
      omega

unseal Rat.add Rat.mul Rat.inv Rat.sub in
/-- Witness for `auto_centre_characterization` on the centre scenario. -/
theorem auto_centre_characterization_witness :
    1 ≤ 2 / 2 ∧
    ((tomo_auto_centre_offset centreState 2 ∈ winRangeList (2 / 2) ∧
      (∀ o ∈ winRangeList (2 / 2),
        tomoCentreVar centreState 2 (tomo_auto_centre_offset centreState 2) ≤
          tomoCentreVar centreState 2 o) ∧
      (∀ o ∈ winRangeList (2 / 2), o < tomo_auto_centre_offset centreState 2 →
        tomoCentreVar centreState 2 (tomo_auto_centre_offset centreState 2) <
          tomoCentreVar centreState 2 o)) ∧
    ((-1 - load_auto_centre_offset centreState 2 2) ∈ winRangeList (2 / 2) ∧
      (∀ o ∈ winRangeList (2 / 2),
        loadCentreVar centreState 2 2 (-1 - load_auto_centre_offset centreState 2 2) ≤
          loadCentreVar centreState 2 2 o) ∧
      (∀ o ∈ winRangeList (2 / 2),
        -1 - load_auto_centre_offset centreState 2 2 < o →
        loadCentreVar centreState 2 2 (-1 - load_auto_centre_offset centreState 2 2) <
          loadCentreVar centreState 2 2 o))) :=
  ⟨by omega, auto_centre_characterization centreState 2 2 (by omega)⟩

/-- Claim C5: the crop_circle side length w is the largest integer of the
same parity as recon_width whose square does not exceed recon_width^2 / 2
(i.e. the side of the largest same-parity centred square inside the
inscribed circle), the margins are exactly symmetric, and the Python slice
[w0:w0+w] of a row of length recon_width has length w.  (recon_width = 1
is degenerate: the formula gives w = -1 and the slice is empty; every
achievable reconstruction width is >= 2 here.) -/
theorem crop_circle_largest_inscribed (n : ℕ) (hn : 2 ≤ n) :
    (cropCircleW n - n) % 2 = 0 ∧
    0 ≤ cropCircleW n ∧
    2 * cropCircleW n ^ 2 ≤ (n : ℤ) ^ 2 ∧
    (∀ z : ℤ, 0 ≤ z → (z - n) % 2 = 0 → 2 * z ^ 2 ≤ (n : ℤ) ^ 2 →
      z ≤ cropCircleW n) ∧
    2 * cropCircleW0 n = (n : ℤ) - cropCircleW n ∧
    (n : ℤ) - (cropCircleW0 n + cropCircleW n) = cropCircleW0 n ∧
    ∀ row : List ℚ, row.length = n →
      (pySlice (some (cropCircleW0 n)) (some (cropCircleW0 n + cropCircleW n))
        row).length = (cropCircleW n).toNat := by
  have hk1 : Nat.sqrt (n * n / 2) * Nat.sqrt (n * n / 2) ≤ n * n / 2 :=
    Nat.sqrt_le _
  have hnn : 4 ≤ n * n := Nat.mul_le_mul hn hn
  have hw1pos : 1 ≤ Nat.sqrt (n * n / 2) := by
    rw [Nat.le_sqrt]
    omega
  have hw1n : Nat.sqrt (n * n / 2) ≤ n := by
    calc Nat.sqrt (n * n / 2) ≤ Nat.sqrt (n * n) :=
          Nat.sqrt_le_sqrt (Nat.div_le_self _ _)
    _ = n := by
          have := Nat.sqrt_eq' n
          rwa [pow_two] at this
  -- the parity-adjusted w in both branches
  have hw : cropCircleW n = (Nat.sqrt (n * n / 2) : ℤ) ∨
      cropCircleW n = (Nat.sqrt (n * n / 2) : ℤ) - 1 := by
    unfold cropCircleW
    split
    · exact Or.inl rfl
    · exact Or.inr rfl
  have hwpar : (cropCircleW n - n) % 2 = 0 := by
    unfold cropCircleW
    split
    · assumption
    · omega
  have hwle : cropCircleW n ≤ (Nat.sqrt (n * n / 2) : ℤ) := by
    rcases hw with h | h <;> omega
  have hwpos : 0 ≤ cropCircleW n := by
    rcases hw with h | h <;> omega
  have hwn : cropCircleW n ≤ n := by
    rcases hw with h | h <;> omega
  have hsq : 2 * cropCircleW n ^ 2 ≤ (n : ℤ) ^ 2 := by
    have h1 : cropCircleW n ^ 2 ≤ (Nat.sqrt (n * n / 2) : ℤ) ^ 2 := by
      have := hwle
      nlinarith
    have h2 : ((Nat.sqrt (n * n / 2) : ℤ)) ^ 2 ≤ ((n * n / 2 : ℕ) : ℤ) := by
      rw [pow_two]
      exact_mod_cast hk1
    have h3 : 2 * ((n * n / 2 : ℕ) : ℤ) ≤ (n : ℤ) ^ 2 := by
      rw [pow_two]
      have : 2 * (n * n / 2) ≤ n * n := by omega
      exact_mod_cast this
    linarith
  have hmax : ∀ z : ℤ, 0 ≤ z → (z - n) % 2 = 0 → 2 * z ^ 2 ≤ (n : ℤ) ^ 2 →
      z ≤ cropCircleW n := by
    intro z hz hzpar hzsq
    have hzn : z.toNat * z.toNat ≤ n * n / 2 := by
      have h1 : 2 * (z.toNat * z.toNat : ℤ) ≤ ((n : ℤ)) * n := by
        rw [Int.toNat_of_nonneg hz]
        nlinarith
      have h2 : 2 * (z.toNat * z.toNat) ≤ n * n := by exact_mod_cast h1
      omega
    have hzsqrt : z.toNat ≤ Nat.sqrt (n * n / 2) := Nat.le_sqrt.mpr hzn
    have hzw1 : z ≤ (Nat.sqrt (n * n / 2) : ℤ) := by
      rw [← Int.toNat_of_nonneg hz]
      exact_mod_cast hzsqrt
    unfold cropCircleW
    split
    · exact hzw1
    · -- parity of w1 differs from n, z has the parity of n, so z ≠ w1
      rename_i hne
      omega
  have hctr : 2 * cropCircleW0 n = (n : ℤ) - cropCircleW n := by
    unfold cropCircleW0
    omega
  refine ⟨hwpar, hwpos, hsq, hmax, hctr, by omega, ?_⟩
  intro row hrow
  have h0 : ¬(cropCircleW0 n < 0) := by omega
  have h1 : ¬(cropCircleW0 n + cropCircleW n < 0) := by omega
  simp only [pySlice, pyIdx, List.length_drop, List.length_take, hrow]
  rw [if_neg h1, if_neg h0]
  omega

/-- Witness for `crop_circle_largest_inscribed` at recon_width 10
(w = 6, margins 2). -/
theorem crop_circle_largest_inscribed_witness :
    2 ≤ 10 ∧
    ((cropCircleW 10 - 10) % 2 = 0 ∧
      0 ≤ cropCircleW 10 ∧
      2 * cropCircleW 10 ^ 2 ≤ (10 : ℤ) ^ 2 ∧
      (∀ z : ℤ, 0 ≤ z → (z - 10) % 2 = 0 → 2 * z ^ 2 ≤ (10 : ℤ) ^ 2 →
        z ≤ cropCircleW 10) ∧
      2 * cropCircleW0 10 = (10 : ℤ) - cropCircleW 10 ∧
      (10 : ℤ) - (cropCircleW0 10 + cropCircleW 10) = cropCircleW0 10 ∧
      ∀ row : List ℚ, row.length = 10 →
        (pySlice (some (cropCircleW0 10)) (some (cropCircleW0 10 + cropCircleW 10))
          row).length = (cropCircleW 10).toNat) :=
  ⟨by omega, crop_circle_largest_inscribed 10 (by omega)⟩

/-- Inserting into a list grows its length by one. -/
theorem insertSorted_length (x : ℚ) (l : List ℚ) :
    (insertSorted x l).length = l.length + 1 := by
  induction l with
  | nil => rfl
  | cons y ys ih =>
    unfold insertSorted
    split <;> simp [ih]

/-- Members of an insertion are the inserted element or old members. -/
theorem insertSorted_mem (x y : ℚ) (l : List ℚ) (h : x ∈ insertSorted y l) :
    x = y ∨ x ∈ l := by
  induction l with
  | nil => simpa [insertSorted] using h
  | cons z zs ih =>
    unfold insertSorted at h
    split at h
    · rcases List.mem_cons.mp h with h1 | h1
      · exact Or.inl h1
      · exact Or.inr h1
    · rcases List.mem_cons.mp h with h1 | h1
      · exact Or.inr (List.mem_cons.mpr (Or.inl h1))
      · rcases ih h1 with h2 | h2
        · exact Or.inl h2
        · exact Or.inr (List.mem_cons.mpr (Or.inr h2))

/-- Length of the insertion-sort fold. -/
theorem foldl_insert_length (l : List ℚ) : ∀ acc : List ℚ,
    (l.foldl (fun a x => insertSorted x a) acc).length = acc.length + l.length := by
  induction l with
  | nil => intro acc; simp
  | cons x xs ih =>
    intro acc
    rw [List.foldl_cons, ih, insertSorted_length]
    simp
    omega

/-- Members of the insertion-sort fold come from the accumulator or the
input. -/
theorem foldl_insert_mem (l : List ℚ) : ∀ acc : List ℚ,
    ∀ x ∈ l.foldl (fun a y => insertSorted y a) acc, x ∈ acc ∨ x ∈ l := by
  induction l with
  | nil =>
    intro acc x hx
    exact Or.inl hx
  | cons z zs ih =>
    intro acc x hx
    rcases ih (insertSorted z acc) x hx with h | h
    · rcases insertSorted_mem x z acc h with h2 | h2
      · right
        simp [h2]
      · exact Or.inl h2
    · right
      exact List.mem_cons.mpr (Or.inr h)

/-- The rank-2 window statistic is one of its four inputs. -/
theorem rank2of4_mem (a b c d : ℚ) :
    rank2of4 a b c d = a ∨ rank2of4 a b c d = b ∨
      rank2of4 a b c d = c ∨ rank2of4 a b c d = d := by
  unfold rank2of4 sortQ
  have hlen : (([a, b, c, d].foldl (fun ac x => insertSorted x ac) [])).length = 4 := by
    rw [foldl_insert_length]
    rfl
  have h2 : 2 < (([a, b, c, d].foldl (fun ac x => insertSorted x ac) [])).length := by
    omega
  rw [List.getD_eq_getElem _ _ h2]
  have hmem := List.getElem_mem h2
  rcases foldl_insert_mem [a, b, c, d] [] _ hmem with h | h
  · simp at h
  · simpa using h

/-- Binarised entries are 0 or 1. -/
theorem binEntry_cases (t : ℚ) (x : ℝ) : binEntry t x = 0 ∨ binEntry t x = 1 := by
  unfold binEntry
  split
  · exact Or.inr rfl
  · exact Or.inl rfl

/-- A doubly-defaulted matrix entry is either the default 0 or an element
of one of the rows. -/
theorem getD_getD_cases (m : Mat) (i j : ℕ) :
    (m.getD i []).getD j 0 = 0 ∨ ∃ r ∈ m, (m.getD i []).getD j 0 ∈ r := by
  by_cases hi : i < m.length
  · have hr : m.getD i [] ∈ m := by
      rw [List.getD_eq_getElem _ _ hi]
      exact List.getElem_mem hi
    by_cases hj : j < (m.getD i []).length
    · refine Or.inr ⟨m.getD i [], hr, ?_⟩
      rw [List.getD_eq_getElem _ _ hj]
      exact List.getElem_mem hj
    · exact Or.inl (List.getD_eq_default _ _ (by omega))
  · left
    rw [List.getD_eq_default m [] (by omega)]
    rfl

/-- Every entry (with the getD-default convention) of the raw binarised
silhouette matrix is 0 or 1. -/
theorem binarise0_entries01 (sino : Mat) (t : ℚ) (i j : ℕ) :
    ((binarise0 sino t).getD i []).getD j 0 = 0 ∨
      ((binarise0 sino t).getD i []).getD j 0 = 1 := by
  rcases getD_getD_cases (binarise0 sino t) i j with h | ⟨r, hr, hx⟩
  · exact Or.inl h
  · unfold binarise0 at hr
    rw [List.mem_map] at hr
    obtain ⟨row, -, rfl⟩ := hr
    rw [List.mem_map] at hx
    obtain ⟨v, -, hv⟩ := hx
    rw [← hv]
    exact binEntry_cases _ _

/-- The 2x2 median filter preserves 0/1-valued matrices (with the
getD-default convention). -/
theorem medfilt2_entries01 (m : Mat)
    (h : ∀ a b, (m.getD a []).getD b 0 = 0 ∨ (m.getD a []).getD b 0 = 1) :
    ∀ i j, ((medfilt2 m).getD i []).getD j 0 = 0 ∨
      ((medfilt2 m).getD i []).getD j 0 = 1 := by
  intro i j
  rcases getD_getD_cases (medfilt2 m) i j with hz | ⟨r, hr, hx⟩
  · exact Or.inl hz
  · unfold medfilt2 at hr
    rw [List.mem_map] at hr
    obtain ⟨a, -, rfl⟩ := hr
    rw [List.mem_map] at hx
    obtain ⟨b, -, hv⟩ := hx
    rw [← hv]
    rcases rank2of4_mem ((m.getD (a - 1) []).getD (b - 1) 0)
      ((m.getD (a - 1) []).getD b 0) ((m.getD a []).getD (b - 1) 0)
      ((m.getD a []).getD b 0) with hrk | hrk | hrk | hrk <;> rw [hrk]
    · exact h (a - 1) (b - 1)
    · exact h (a - 1) b
    · exact h a (b - 1)
    · exact h a b

/-- Summing the per-view background penalties of a 0/1 silhouette equals
counting the background views. -/
theorem sum_one_sub_eq_count (g : ℕ → ℚ) (nI : ℕ)
    (h : ∀ v, v < nI → g v = 0 ∨ g v = 1) :
    ((List.range nI).map fun v => 1 - g v).sum =
      (((List.range nI).filter fun v => g v = 0).length : ℚ) := by
  induction nI with
  | zero => simp
  | succ k ih =>
    have hk : ∀ v, v < k → g v = 0 ∨ g v = 1 := fun v hv => h v (by omega)
    rw [List.range_succ, List.map_append, List.sum_append, List.filter_append,
      List.length_append, ih hk]
    rcases h k (by omega) with h0 | h1
    · simp [h0]
      try push_cast
      try ring
    · have hne : ¬(g k = 0) := by rw [h1]; norm_num
      simp [h1, hne]

/-- One accumulator cell, rewritten as 1 minus the number of views whose
silhouette is background at the cell's projected column (the form the
specification uses). -/
theorem hullAccumCell_eq_count (mask : Mat) (angles : List ℚ)
    (nI W c i j : ℕ)
    (h : ∀ a b, (mask.getD a []).getD b 0 = 0 ∨ (mask.getD a []).getD b 0 = 1) :
    hullAccumCell mask angles nI W c i j =
      1 - (((List.range nI).filter fun v =>
        (mask.getD v []).getD (mapIdxAt W c (deg2rad (angles.getD v 0)) i j) 0
          = 0).length : ℚ) := by
  unfold hullAccumCell
  rw [sum_one_sub_eq_count]
  intro v hv
  exact h v _

/-- Claim C2 amended: visualhulls_recon computes exactly the claim's
pipeline with one change - the bias added to every cell before
thresholding is floor(range / 4) (numpy float floor division `//`), not
the exact quotient range / 4. -/
theorem visualhulls_recon_eq_spec_floor (st : CtState) (sino : Mat) (t : ℚ) :
    visualhulls_recon st sino t = visualhulls_spec_floor st sino t := by
  have hmask : ∀ a b, ((hullMask sino t).getD a []).getD b 0 = 0 ∨
      ((hullMask sino t).getD a []).getD b 0 = 1 := by
    unfold hullMask
    exact medfilt2_entries01 _ (fun a b => binarise0_entries01 sino t a b)
  have hfull : visualhulls_full st sino t =
      (List.range sino.length).map fun i => (List.range sino.length).map fun j =>
        1 - (((List.range (st.num_images.getD 0)).filter fun v =>
          ((hullMask sino t).getD v []).getD
            (mapIdxAt sino.length (sino.length / 2)
              (deg2rad ((st.angles.getD []).getD v 0)) i j) 0 = 0).length : ℚ) := by
    unfold visualhulls_full
    apply List.map_congr_left
    intro i _
    apply List.map_congr_left
    intro j _
    exact hullAccumCell_eq_count _ _ _ _ _ _ _ hmask
  simp only [visualhulls_recon, visualhulls_spec_floor]
  rw [hfull, List.map_map]
  apply List.map_congr_left
  intro r _
  simp only [Function.comp_apply]
  rw [List.map_map]
  apply List.map_congr_left
  intro v _
  simp only [Function.comp_apply]

/-- On the counterexample sinogram, the clear column (transmission 1) is
classified as background: its absorption -log(1 + 1e-8) is negative. -/
theorem hull_bin_clear : binEntry (1 / 2) (neglog 1) = 0 := by
  have h1 : (0 : ℝ) < Real.log (1 + 1 / 100000000) := Real.log_pos (by norm_num)
  have h2 : ¬(((1 / 2 : ℚ) : ℝ) < neglog 1) := by
    unfold neglog
    push_cast
    intro hlt
    linarith
  unfold binEntry
  rw [if_neg h2]

/-- On the counterexample sinogram, the opaque column (transmission 1/100)
is classified as foreground: its absorption -log(0.01000001) exceeds 1/2
because exp(1/2) < e < 2.72 < (0.01000001)^-1. -/
theorem hull_bin_opaque : binEntry (1 / 2) (neglog (1 / 100)) = 1 := by
  have h2 : (((1 / 2 : ℚ)) : ℝ) < neglog (1 / 100) := by
    unfold neglog
    push_cast
    rw [← Real.log_inv, Real.lt_log_iff_exp_lt (by positivity)]
    have he : Real.exp (1 / 2) < 3 := by
      have h3 : Real.exp (1 / 2) < Real.exp 1 := Real.exp_lt_exp.mpr (by norm_num)
      have h4 := Real.exp_one_lt_d9
      linarith
    have hz : (3 : ℝ) < ((1 : ℝ) / 100 + 1 / 100000000)⁻¹ := by norm_num
    linarith
  unfold binEntry
  rw [if_pos h2]

/-- The binarised counterexample sinogram. -/
theorem hull_binarise_eval : binarise0 hullSino (1 / 2) = [[0, 1]] := by
  unfold binarise0
  rw [show hullSino.transpose = [[(1 : ℚ), 1 / 100]] from rfl]
  simp only [List.map_cons, List.map_nil]
  rw [hull_bin_clear, hull_bin_opaque]

/-- The silhouette mask of the counterexample after the 2x2 median filter. -/
theorem hull_mask_eval : hullMask hullSino (1 / 2) = [[0, 1]] := by
  unfold hullMask
  rw [hull_binarise_eval]
  decide

/-- At view angle 0 the rotation mapping of a 2x2 field with centre 1 maps
cell column j to detector column j. -/
theorem hull_map_eval (i j : ℕ) (hj : j < 2) : mapIdxAt 2 1 (deg2rad 0) i j = j := by
  have hc : deg2rad 0 = 0 := by
    unfold deg2rad
    push_cast
    ring
  rw [hc]
  simp only [mapIdxAt, truncInt, Real.cos_zero, Real.sin_zero, mul_one, mul_zero,
    sub_zero]
  interval_cases j
  · rw [show ((0 : ℕ) : ℝ) - ((1 : ℕ) : ℝ) = ((-1 : ℤ) : ℝ) by push_cast; ring]
    rw [if_neg (by push_cast; norm_num), Int.ceil_intCast]
    decide
  · rw [show ((1 : ℕ) : ℝ) - ((1 : ℕ) : ℝ) = 0 by push_cast; ring]
    rw [if_pos le_rfl, Int.floor_zero]
    decide

/-- The accumulator cells of the counterexample: column 0 carved, column 1
kept. -/
theorem hull_cell_eval (i : ℕ) :
    hullAccumCell [[0, 1]] [0] 1 2 1 i 0 = 0 ∧
    hullAccumCell [[0, 1]] [0] 1 2 1 i 1 = 1 := by
  constructor
  · unfold hullAccumCell
    rw [show (List.range 1) = [0] from rfl]
    simp only [List.map_cons, List.map_nil, List.sum_cons, List.sum_nil]
    rw [show (([0] : List ℚ).getD 0 0) = 0 from rfl]
    rw [hull_map_eval i 0 (by omega)]
    norm_num
  · unfold hullAccumCell
    rw [show (List.range 1) = [0] from rfl]
    simp only [List.map_cons, List.map_nil, List.sum_cons, List.sum_nil]
    rw [show (([0] : List ℚ).getD 0 0) = 0 from rfl]
    rw [hull_map_eval i 1 (by omega)]
    norm_num

/-- The full accumulator of the counterexample. -/
theorem hull_full_eval :
    visualhulls_full hullState hullSino (1 / 2) = [[0, 1], [0, 1]] := by
  show (List.range 2).map (fun i => (List.range 2).map fun j =>
    hullAccumCell (hullMask hullSino (1 / 2)) [0] 1 2 1 i j) = [[0, 1], [0, 1]]
  rw [hull_mask_eval]
  rw [show (List.range 2) = [0, 1] from rfl]
  simp only [List.map_cons, List.map_nil]
  rw [(hull_cell_eval 0).1, (hull_cell_eval 0).2,
    (hull_cell_eval 1).1, (hull_cell_eval 1).2]

unseal Rat.add Rat.mul Rat.inv Rat.sub in
/-- visualhulls_recon on the counterexample: the integer-valued range is 1,
the floor-divided bias 1 // 4 is 0, and the surviving cells keep value 1. -/
theorem hull_recon_eval :
    visualhulls_recon hullState hullSino (1 / 2) = [[0, 1], [0, 1]] := by
  simp only [visualhulls_recon]
  rw [hull_full_eval]
  decide

unseal Rat.add Rat.mul Rat.inv Rat.sub in
/-- The claim's exact-division pipeline on the counterexample: the bias is
1/4, so the surviving cells carry value 5/4. -/
theorem hull_spec_exact_eval :
    visualhulls_spec_exact hullState hullSino (1 / 2) = [[0, 5 / 4], [0, 5 / 4]] := by
  show ((List.range 2).map fun i => (List.range 2).map fun j =>
      1 - (((List.range 1).filter fun v =>
        ((hullMask hullSino (1 / 2)).getD v []).getD
          (mapIdxAt 2 1 (deg2rad (([0] : List ℚ).getD v 0)) i j) 0
          = 0).length : ℚ)).map
      (fun r => r.map fun v =>
        if v + (matMaxQ ((List.range 2).map fun i => (List.range 2).map fun j =>
            1 - (((List.range 1).filter fun v =>
              ((hullMask hullSino (1 / 2)).getD v []).getD
                (mapIdxAt 2 1 (deg2rad (([0] : List ℚ).getD v 0)) i j) 0
                = 0).length : ℚ)) -
          matMinQ ((List.range 2).map fun i => (List.range 2).map fun j =>
            1 - (((List.range 1).filter fun v =>
              ((hullMask hullSino (1 / 2)).getD v []).getD
                (mapIdxAt 2 1 (deg2rad (([0] : List ℚ).getD v 0)) i j) 0
                = 0).length : ℚ))) / 4 < 1 / 2
        then 0
        else v + (matMaxQ ((List.range 2).map fun i => (List.range 2).map fun j =>
            1 - (((List.range 1).filter fun v =>
              ((hullMask hullSino (1 / 2)).getD v []).getD
                (mapIdxAt 2 1 (deg2rad (([0] : List ℚ).getD v 0)) i j) 0
                = 0).length : ℚ)) -
          matMinQ ((List.range 2).map fun i => (List.range 2).map fun j =>
            1 - (((List.range 1).filter fun v =>
              ((hullMask hullSino (1 / 2)).getD v []).getD
                (mapIdxAt 2 1 (deg2rad (([0] : List ℚ).getD v 0)) i j) 0
                = 0).length : ℚ))) / 4) = [[0, 5 / 4], [0, 5 / 4]]
  have hmap : ((List.range 2).map fun i => (List.range 2).map fun j =>
      1 - (((List.range 1).filter fun v =>
        ((hullMask hullSino (1 / 2)).getD v []).getD
          (mapIdxAt 2 1 (deg2rad (([0] : List ℚ).getD v 0)) i j) 0
          = 0).length : ℚ)) = [[0, 1], [0, 1]] := by
    rw [hull_mask_eval, show (List.range 2) = [0, 1] from rfl,
      show (List.range 1) = [0] from rfl]
    simp only [List.map_cons, List.map_nil, List.filter_cons, List.filter_nil]
    rw [show (([0] : List ℚ).getD 0 0) = 0 from rfl]
    rw [hull_map_eval 0 0 (by omega), hull_map_eval 0 1 (by omega),
      hull_map_eval 1 0 (by omega), hull_map_eval 1 1 (by omega)]
    decide
  rw [hmap]
  decide

unseal Rat.add Rat.mul Rat.inv Rat.sub in
/-- Claim C2 is false as stated: on the counterexample
(one view at angle 0, detector width 2, threshold 1/2) the code returns
cell value 1 where the claimed exact-division bias would return 5/4 -
the code floor-divides the range (`full += data_range // 4`). -/
theorem visualhulls_floor_bias_cex :
    visualhulls_recon hullState hullSino (1 / 2) = [[0, 1], [0, 1]] ∧
    visualhulls_spec_exact hullState hullSino (1 / 2) = [[0, 5 / 4], [0, 5 / 4]] ∧
    visualhulls_recon hullState hullSino (1 / 2) ≠
      visualhulls_spec_exact hullState hullSino (1 / 2) := by
  refine ⟨hull_recon_eval, hull_spec_exact_eval, ?_⟩
  rw [hull_recon_eval, hull_spec_exact_eval]
  decide
